import Mathlib

/-!
Verification development for `fetch_wiki_bash.py`, a script that fetches
wiki pages from gitlab.com, extracts fenced `bash`/`sh`/`shell` code blocks
from their Markdown content, filters out blocks starting with configured
exclusion prefixes, and concatenates the surviving blocks into one output
file per repository.

Python strings are modelled as `List Char`.  The regular-expression
machinery of `re.findall` is embedded for the one fixed pattern the script
uses; `requests` responses are modelled by an oracle function from URL and
token to an abstract `FetchStep` outcome.
-/

set_option autoImplicit false

/-- The backtick character, written via its code point. -/
def backtick : Char := Char.ofNat 96

/-- The literal fence marker, three consecutive backticks. -/
def tripleTick : List Char := [backtick, backtick, backtick]

/-- Whitespace characters recognised by Python's `str.strip()` and by the
regex class `\s` on `str` patterns: the ASCII whitespace characters plus
the information separators and the common Unicode space code points.  Both
Python notions are modelled with this single set. -/
def pySpaceChars : List Char :=
  [' ', '\t', '\n', '\x0b', '\x0c', '\r',
   '\x1c', '\x1d', '\x1e', '\x1f', '\x85', '\xa0',
   ' ', ' ', ' ', ' ', ' ', ' ', ' ',
   ' ', ' ', ' ', ' ', ' ',
   ' ', ' ', ' ', ' ', '　']

/-- Whether a character is whitespace in the sense of `pySpaceChars`. -/
def isPySpace (c : Char) : Bool := decide (c ∈ pySpaceChars)

/-- All characters of a list are whitespace. -/
def allSpace (l : List Char) : Prop := ∀ c ∈ l, isPySpace c = true

/-- Python `str.strip()`: remove leading and trailing whitespace
(line 95 of the source: `block = block.strip()`). -/
def pyStrip (s : List Char) : List Char :=
  ((s.dropWhile isPySpace).reverse.dropWhile isPySpace).reverse

/-- Python `str.lower()`, modelled on its ASCII fragment
(`Char.toLower` maps `A`-`Z` to `a`-`z` and fixes everything else). -/
def pyLower (s : List Char) : List Char := s.map Char.toLower

/-- Python `str.startswith(pat)`: `startsWith s pat` is true iff `pat` is a
prefix of `s`. -/
def startsWith : List Char → List Char → Bool
  | _, [] => true
  | [], _ :: _ => false
  | a :: s, c :: p => if a = c then startsWith s p else false

/-- Python's `pat in s` substring test. -/
def pyContains : List Char → List Char → Bool
  | [], pat => startsWith [] pat
  | a :: s, pat => startsWith (a :: s) pat || pyContains s pat

/-- Python `str.replace(old, new)` restricted to a single-character `old`,
which is the only form the source uses (`"/"`, `" "`). -/
def pyReplace (s : List Char) (old : Char) (new : List Char) : List Char :=
  s.foldr (fun a acc => if a = old then new ++ acc else a :: acc) []

/-- Match a literal pattern (first argument) at the head of a text,
returning the rest of the text on success. -/
def dropLit : List Char → List Char → Option (List Char)
  | [], s => some s
  | _ :: _, [] => none
  | c :: p, a :: s => if a = c then dropLit p s else none

/-- Match a literal pattern case-insensitively at the head of a text,
case-folding both sides as `re.IGNORECASE` does. -/
def dropLitCI : List Char → List Char → Option (List Char)
  | [], s => some s
  | _ :: _, [] => none
  | c :: p, a :: s =>
    if Char.toLower a = Char.toLower c then dropLitCI p s else none

/-- The lazy group-and-close part `(.*?)\x60\x60\x60` of the block pattern
(line 90 of the source) under `re.DOTALL`: return the shortest group such
that the closing fence follows, together with the text after that fence. -/
def matchClose : List Char → Option (List Char × List Char)
  | [] => none
  | c :: cs =>
    if startsWith (c :: cs) tripleTick then some ([], (c :: cs).drop 3)
    else
      match matchClose cs with
      | some (g, r) => some (c :: g, r)
      | none => none

/-- The tail `\s*\n(.*?)\x60\x60\x60` of the block pattern after the
language tag: a greedy whitespace star (preferring to consume, then
backtracking), a mandatory newline, then the lazy group and closing
fence. -/
def matchTail : List Char → Option (List Char × List Char)
  | [] => none
  | c :: cs =>
    if isPySpace c then
      match matchTail cs with
      | some r => some r
      | none => if c = '\n' then matchClose cs else none
    else none

/-- One alternative of the tag alternation: match the tag literal
case-insensitively, then the tail of the pattern. -/
def tagBranch (tagPat : List Char) (s : List Char) : Option (List Char × List Char) :=
  match dropLitCI tagPat s with
  | some s2 => matchTail s2
  | none => none

/-- Attempt the whole pattern
`\x60\x60\x60(?:bash|sh|shell)\s*\n(.*?)\x60\x60\x60` at the head of `s`
(flags `re.DOTALL | re.IGNORECASE`), with the alternation tried in the
written order and full backtracking between alternatives, as Python's
`re` engine does.  Returns the captured group and the rest of the text. -/
def matchFenceAt (s : List Char) : Option (List Char × List Char) :=
  match dropLit tripleTick s with
  | none => none
  | some s1 =>
    match tagBranch "bash".toList s1 with
    | some r => some r
    | none =>
      match tagBranch "sh".toList s1 with
      | some r => some r
      | none => tagBranch "shell".toList s1

/-- Fuelled scanning loop of `re.findall`: try the pattern at every
position left to right; on a match, emit the group and resume after the
consumed text (matches are non-overlapping and never empty). -/
def findAllGo : Nat → List Char → List (List Char)
  | _, [] => []
  | 0, _ :: _ => []
  | fuel + 1, c :: cs =>
    match matchFenceAt (c :: cs) with
    | some (g, rest) => g :: findAllGo fuel rest
    | none => findAllGo fuel cs

/-- `re.findall(pattern, markdown_content, re.DOTALL | re.IGNORECASE)`
for the fixed block pattern (line 91 of the source). -/
def findAll (s : List Char) : List (List Char) := findAllGo s.length s

/-- The exclusion test of lines 98-103:
`block.lower().startswith(prefix.lower())` for some configured
exclusion entry. -/
def shouldExclude (excl : List (List Char)) (block : List Char) : Bool :=
  excl.any (fun p => startsWith (pyLower block) (pyLower p))

/-- `extract_bash_code_blocks` (lines 71-108): find all tagged fenced
blocks, strip each, drop those matching an exclusion entry and those that
strip to empty, keep the rest in order. -/
def extract_bash_code_blocks (md : List Char) (excl : List (List Char)) : List (List Char) :=
  (findAll md).filterMap (fun m =>
    let block := pyStrip m
    if shouldExclude excl block = false ∧ block ≠ [] then some block else none)

/-- Outcome of one `requests.get` call together with the body views the
script uses.  `exn` models a raised `requests.RequestException` (timeout,
connection error; also the `JSONDecodeError` of `response.json()` on a
malformed body, which in the `requests` library subclasses
`RequestException`, is modelled separately by `jsonContentField = none`).
`resp statusCode text jsonContentField` models a received response:
`text` is `response.text`; `jsonContentField` is `none` when
`response.json()` raises (body not parseable as JSON), `some none` when
the parsed object has no `"content"` key, and `some (some c)` when the
`"content"` field holds `c`. -/
inductive FetchStep where
  | exn : FetchStep
  | resp (statusCode : Nat) (text : List Char) (jsonContentField : Option (Option (List Char))) : FetchStep
deriving DecidableEq

/-- The substring tested by `if "/api/v4/" in url` (line 58). -/
def apiV4marker : List Char := "/api/v4/".toList

/-- Line 32: `encoded_repo = repo.replace("/", "%2F")`. -/
def encoded_repo (repo : List Char) : List Char := pyReplace repo '/' "%2F".toList

/-- Line 35: `page_slug = page.replace(" ", "-")`. -/
def page_slug (page : List Char) : List Char := pyReplace page ' ' "-".toList

/-- First candidate URL (line 44): API query with the slugged page name. -/
def urlApiSlug (repo page : List Char) : List Char :=
  "https://gitlab.com/api/v4/projects/".toList ++
    (encoded_repo repo ++ ("/wikis/".toList ++ page_slug page))

/-- Second candidate URL (line 45): API query with the verbatim page name. -/
def urlApiPlain (repo page : List Char) : List Char :=
  "https://gitlab.com/api/v4/projects/".toList ++
    (encoded_repo repo ++ ("/wikis/".toList ++ page))

/-- Third candidate URL (line 47): raw content with the slugged page name. -/
def urlRawSlug (repo page : List Char) : List Char :=
  "https://gitlab.com/".toList ++
    (repo ++ ("/-/wikis/".toList ++ (page_slug page ++ "/raw".toList)))

/-- Fourth candidate URL (line 48): raw content with the verbatim page name. -/
def urlRawPlain (repo page : List Char) : List Char :=
  "https://gitlab.com/".toList ++
    (repo ++ ("/-/wikis/".toList ++ (page ++ "/raw".toList)))

/-- The ordered candidate list `urls` of lines 42-49. -/
def wikiUrls (repo page : List Char) : List (List Char) :=
  [urlApiSlug repo page, urlApiPlain repo page,
   urlRawSlug repo page, urlRawPlain repo page]

/-- The `for url in urls` loop of lines 51-65, instrumented with the list
of URLs actually requested (each iteration issues exactly one
`requests.get`).  A caught exception or a non-200 status or a 200 API
response whose body fails to parse moves on to the next candidate; a 200
response returns the JSON `content` field (default `""`) when the URL
contains `"/api/v4/"` and the body text verbatim otherwise. -/
def fetchLoop (net : List Char → Option (List Char) → FetchStep)
    (token : Option (List Char)) : List (List Char) → Option (List Char) × List (List Char)
  | [] => (none, [])
  | url :: rest =>
    match net url token with
    | FetchStep.exn =>
      let r := fetchLoop net token rest
      (r.1, url :: r.2)
    | FetchStep.resp statusCode text jsonContentField =>
      if statusCode = 200 then
        if pyContains url apiV4marker then
          match jsonContentField with
          | some contentField => (some (contentField.getD []), [url])
          | none =>
            let r := fetchLoop net token rest
            (r.1, url :: r.2)
        else (some text, [url])
      else
        let r := fetchLoop net token rest
        (r.1, url :: r.2)

/-- `fetch_wiki_page` (lines 21-68): try the candidate URLs in order and
return the first successfully extracted content, or `none` (Python
`None`, line 68) when every candidate fails. -/
def fetch_wiki_page (repo page : List Char) (token : Option (List Char))
    (net : List Char → Option (List Char) → FetchStep) : Option (List Char) :=
  (fetchLoop net token (wikiUrls repo page)).1

/-- What one loop iteration of `fetch_wiki_page` produces for a given URL
and network outcome: `some c` means the loop returns `c`, `none` means it
moves on to the next candidate. -/
def candidateResult (url : List Char) (st : FetchStep) : Option (List Char) :=
  match st with
  | FetchStep.exn => none
  | FetchStep.resp statusCode text jsonContentField =>
    if statusCode = 200 then
      if pyContains url apiV4marker then
        match jsonContentField with
        | some contentField => some (contentField.getD [])
        | none => none
      else some text
    else none

/-- One configuration entry of `wiki_pages` (lines 189-191): a repository
path and its page names. -/
structure WikiEntry where
  repo : List Char
  pages : List (List Char)
deriving DecidableEq

/-- Python dict assignment `d[k] = v` on an insertion-ordered association
list: replace the value at the first occurrence of `k`, keeping its
position, or append a new binding. -/
def dictSet {β : Type} : List (List Char × β) → List Char → β → List (List Char × β)
  | [], k, v => [(k, v)]
  | (k', v') :: d, k, v =>
    if k' = k then (k, v) :: d else (k', v') :: dictSet d k v

/-- Python dict lookup `d[k]` as an `Option`. -/
def dictLookup {β : Type} : List (List Char × β) → List Char → Option β
  | [], _ => none
  | (k', v) :: d, k => if k' = k then some v else dictLookup d k

/-- The `results` structure of `main`: repository path to page name to
extracted block list, in insertion order. -/
abbrev ResultSet : Type := List (List Char × List (List Char × List (List Char)))

/-- `results[repo][page] = blocks` when `repo` is already a key of
`results`, as in lines 207 and 210 (where `results[repo]` was assigned
just before the page loop). -/
def setPage (results : ResultSet) (repo page : List Char) (blocks : List (List Char)) : ResultSet :=
  results.map (fun e => if e.1 = repo then (e.1, dictSet e.2 page blocks) else e)

/-- The per-page pipeline of lines 202-210: fetch the page; if the content
is truthy (not `None` and not empty) extract and filter its blocks,
otherwise record an empty list. -/
def pageBlocks (net : List Char → Option (List Char) → FetchStep)
    (token : Option (List Char)) (excl : List (List Char))
    (repo page : List Char) : List (List Char) :=
  match fetch_wiki_page repo page token net with
  | some content => if content ≠ [] then extract_bash_code_blocks content excl else []
  | none => []

/-- The body of the outer `for wiki_config in wiki_pages` loop of `main`
(lines 189-210): `results[repo] = {}` then one `setPage` per page. -/
def processEntry (net : List Char → Option (List Char) → FetchStep)
    (token : Option (List Char)) (excl : List (List Char))
    (results : ResultSet) (e : WikiEntry) : ResultSet :=
  e.pages.foldl
    (fun res page => setPage res e.repo page (pageBlocks net token excl e.repo page))
    (dictSet results e.repo [])

/-- The `results` accumulation of `main` (lines 187-210), parameterised by
the configuration, exclusion entries, token and network oracle. -/
def main_results (cfg : List WikiEntry) (excl : List (List Char))
    (token : Option (List Char))
    (net : List Char → Option (List Char) → FetchStep) : ResultSet :=
  cfg.foldl (processEntry net token excl) []

/-- Nested lookup `results[repo][page]` as an `Option`. -/
def dictLookup2 (d : ResultSet) (repo page : List Char) : Option (List (List Char)) :=
  match dictLookup d repo with
  | some inner => dictLookup inner page
  | none => none

/-- Line 151: `repo_filename = repo.replace("/", "_") + "_bash.sh"`. -/
def repoFileName (repo : List Char) : List Char :=
  pyReplace repo '/' "_".toList ++ "_bash.sh".toList

/-- The bytes written for one repository by `save_results`
(lines 160-164): for each page in order, if its block list is non-empty,
each block followed by a newline. -/
def fileBody (pages : List (List Char × List (List Char))) : List Char :=
  (pages.map (fun pc =>
    if pc.2 = [] then [] else (pc.2.map (fun code => code ++ ['\n'])).flatten)).flatten

/-- `save_results` (lines 149-166) as the list of (file name, file
content) pairs it writes, one per repository in `results` order. -/
def save_results (results : ResultSet) : List (List Char × List Char) :=
  results.map (fun rp => (repoFileName rp.1, fileBody rp.2))

/-- Modelled from the spec: the Writer file name, "named by replacing path
separators in the project identifier with an underscore and appending a
fixed suffix". -/
def writerFileNameSpec (repo : List Char) : List Char :=
  (repo.map (fun c => if c = '/' then '_' else c)) ++ "_bash.sh".toList

/-- Modelled from the spec: the Writer file content, "every filtered code
block across all of that project's pages, each followed by a newline, in
project-page-then-block order". -/
def writerContentSpec (pages : List (List Char × List (List Char))) : List Char :=
  (((pages.map Prod.snd).flatten).map (fun code => code ++ ['\n'])).flatten

/-- A well-formed fenced shell block for rendering test inputs: a language
tag, optional whitespace before the fence's newline, and the inter-fence
body. -/
structure Fence where
  tag : List Char
  ws : List Char
  body : List Char

/-- The fence opens with a `bash`/`sh`/`shell` tag up to case, the
material between tag and newline is whitespace, and the body contains no
backtick. -/
def WFfence (f : Fence) : Prop :=
  (f.tag.map Char.toLower = "bash".toList ∨ f.tag.map Char.toLower = "sh".toList ∨
     f.tag.map Char.toLower = "shell".toList)
  ∧ allSpace f.ws ∧ backtick ∉ f.body

instance (l : List Char) : Decidable (allSpace l) := by
  unfold allSpace
  infer_instance

instance (f : Fence) : Decidable (WFfence f) := by
  unfold WFfence
  infer_instance

/-- Render one fenced block: opening fence, tag, whitespace, newline,
body, closing fence. -/
def renderBlock (f : Fence) : List Char :=
  tripleTick ++ (f.tag ++ (f.ws ++ ('\n' :: (f.body ++ tripleTick))))

/-- Render a Markdown document: a leading segment, then alternately a
fenced block and a following segment. -/
def render : List Char → List (Fence × List Char) → List Char
  | s0, [] => s0
  | s0, (f, seg) :: L => s0 ++ (renderBlock f ++ render seg L)

/-- Network oracle refuting claim C3: the first candidate answers 200 with
a body that is not valid JSON, the second answers 200 with a parseable
body whose content field is `"OK"`. -/
def netC3 : List Char → Option (List Char) → FetchStep := fun url _ =>
  if url = urlApiSlug "g/p".toList "My Page".toList then
    FetchStep.resp 200 "bad".toList none
  else if url = urlApiPlain "g/p".toList "My Page".toList then
    FetchStep.resp 200 "".toList (some (some "OK".toList))
  else FetchStep.exn

/-- Network oracle for the amended C3 witness: first candidate raises, the
others answer 200 with content field `"OK"`. -/
def netC3w : List Char → Option (List Char) → FetchStep := fun url _ =>
  if url = urlApiSlug "g/p".toList "My Page".toList then FetchStep.exn
  else FetchStep.resp 200 "".toList (some (some "OK".toList))

/-- Network oracle refuting claim C6, used with `repo = "api/v4"`: the raw
candidate URL answers 200 with body text `"RAW"` that is not valid JSON;
every other URL raises. -/
def netC6 : List Char → Option (List Char) → FetchStep := fun url _ =>
  if url = urlRawSlug "api/v4".toList "Home".toList then
    FetchStep.resp 200 "RAW".toList none
  else FetchStep.exn

/-- Network oracle for the amended C6 witness: the raw candidate of
`g/p`'s `Home` page answers 200 with `"RAW"`, everything else raises. -/
def netC6w : List Char → Option (List Char) → FetchStep := fun url _ =>
  if url = urlRawSlug "g/p".toList "Home".toList then
    FetchStep.resp 200 "RAW".toList none
  else FetchStep.exn

/-- Network oracle on which every request raises. -/
def netExnAll : List Char → Option (List Char) → FetchStep := fun _ _ => FetchStep.exn

/-- Network oracle on which every request answers 200 with an empty
content field, so the first (API) candidate yields the empty string. -/
def netEmpty200 : List Char → Option (List Char) → FetchStep := fun _ _ =>
  FetchStep.resp 200 [] (some (some []))

theorem startsWith_eq_true : ∀ (s p : List Char), startsWith s p = true ↔ ∃ t, p ++ t = s := by
  intro s p
  induction p generalizing s with
  | nil => cases s <;> simp [startsWith]
  | cons c p ih =>
    cases s with
    | nil => simp [startsWith]
    | cons a s' =>
      by_cases hac : a = c
      · subst hac
        simp [startsWith, ih]
      · simp only [startsWith, if_neg hac]
        constructor
        · intro h
          exact absurd h (by simp)
        · rintro ⟨t, ht⟩
          exact absurd (List.head_eq_of_cons_eq ht) (fun h => hac h.symm)

theorem pyContains_eq_true : ∀ (s pat : List Char), pyContains s pat = true ↔ ∃ u t, u ++ (pat ++ t) = s := by
  intro s pat
  induction s with
  | nil =>
    simp only [pyContains, startsWith_eq_true]
    constructor
    · rintro ⟨t, ht⟩
      exact ⟨[], t, by simpa using ht⟩
    · rintro ⟨u, t, h⟩
      rcases List.append_eq_nil.mp h with ⟨hu, h2⟩
      exact ⟨t, by simpa using h2⟩
  | cons a s' ih =>
    simp only [pyContains, Bool.or_eq_true, startsWith_eq_true, ih]
    constructor
    · rintro (⟨t, ht⟩ | ⟨u, t, h⟩)
      · exact ⟨[], t, by simpa using ht⟩
      · exact ⟨a :: u, t, by simp [h]⟩
    · rintro ⟨u, t, h⟩
      cases u with
      | nil => exact Or.inl ⟨t, by simpa using h⟩
      | cons b u' =>
        right
        rcases List.cons_eq_cons.mp h with ⟨hb, h2⟩
        exact ⟨u', t, h2⟩

theorem pyContains_append_left (a b pat : List Char) (h : pyContains a pat = true) :
    pyContains (a ++ b) pat = true := by
  rcases (pyContains_eq_true a pat).mp h with ⟨u, t, hut⟩
  exact (pyContains_eq_true (a ++ b) pat).mpr ⟨u, t ++ b, by rw [← hut]; simp⟩

theorem isPySpace_toLower (c : Char) (h : isPySpace c = true) : Char.toLower c = c := by
  have hc : c ∈ pySpaceChars := by simpa [isPySpace] using h
  fin_cases hc <;> decide

theorem dropWhile_allSpace_append (w g : List Char) (hw : allSpace w) :
    (w ++ g).dropWhile isPySpace = g.dropWhile isPySpace := by
  induction w with
  | nil => simp
  | cons c w' ih =>
    have hc : isPySpace c = true := hw c (by simp)
    have hw' : allSpace w' := fun d hd => hw d (by simp [hd])
    simp [List.dropWhile_cons, hc, ih hw']

theorem pyStrip_ws_append (w g : List Char) (hw : allSpace w) :
    pyStrip (w ++ g) = pyStrip g := by
  unfold pyStrip
  rw [dropWhile_allSpace_append w g hw]

theorem dropWhile_space_parts : ∀ (s : List Char), ∃ u, u ++ s.dropWhile isPySpace = s := by
  intro s
  induction s with
  | nil => exact ⟨[], rfl⟩
  | cons a s' ih =>
    by_cases ha : isPySpace a = true
    · rcases ih with ⟨u, hu⟩
      exact ⟨a :: u, by simp [List.dropWhile_cons, ha, hu]⟩
    · exact ⟨[], by simp [List.dropWhile_cons, ha]⟩

theorem pyStrip_parts (s : List Char) : ∃ u v, u ++ (pyStrip s ++ v) = s := by
  rcases dropWhile_space_parts s with ⟨u, hu⟩
  rcases dropWhile_space_parts (s.dropWhile isPySpace).reverse with ⟨u', hu'⟩
  refine ⟨u, u'.reverse, ?_⟩
  have ht : s.dropWhile isPySpace = pyStrip s ++ u'.reverse := by
    have := congrArg List.reverse hu'
    simpa [pyStrip, List.reverse_append] using this.symm
  calc u ++ (pyStrip s ++ u'.reverse) = u ++ s.dropWhile isPySpace := by rw [ht]
    _ = s := hu

theorem dropLit_self : ∀ (p s : List Char), dropLit p (p ++ s) = some s := by
  intro p
  induction p with
  | nil => intro s; rfl
  | cons c p ih => intro s; simp [dropLit, ih]

theorem dropLit_length : ∀ (p s u : List Char), dropLit p s = some u → s.length = p.length + u.length := by
  intro p
  induction p with
  | nil =>
    intro s u h
    cases h
    simp
  | cons c p ih =>
    intro s u h
    cases s with
    | nil => exact absurd h (by simp [dropLit])
    | cons a s' =>
      by_cases hac : a = c
      · simp only [dropLit, if_pos hac] at h
        have := ih s' u h
        simp [this, Nat.add_assoc, Nat.add_comm, Nat.add_left_comm]
      · simp [dropLit, if_neg hac] at h

theorem dropLitCI_exact : ∀ (pat tag : List Char),
    tag.map Char.toLower = pat.map Char.toLower →
    ∀ u, dropLitCI pat (tag ++ u) = some u := by
  intro pat
  induction pat with
  | nil =>
    intro tag htag u
    have : tag = [] := by simpa using htag
    subst this
    rfl
  | cons c p ih =>
    intro tag htag u
    cases tag with
    | nil => exact absurd htag (by simp)
    | cons a t =>
      simp only [List.map_cons, List.cons_eq_cons] at htag
      simp [dropLitCI, htag.1, ih t htag.2 u]

theorem dropLitCI_length : ∀ (p s u : List Char), dropLitCI p s = some u → s.length = p.length + u.length := by
  intro p
  induction p with
  | nil =>
    intro s u h
    cases h
    simp
  | cons c p ih =>
    intro s u h
    cases s with
    | nil => exact absurd h (by simp [dropLitCI])
    | cons a s' =>
      by_cases hac : Char.toLower a = Char.toLower c
      · simp only [dropLitCI, if_pos hac] at h
        have := ih s' u h
        simp [this, Nat.add_assoc, Nat.add_comm, Nat.add_left_comm]
      · simp [dropLitCI, if_neg hac] at h


theorem isPySpace_backtick : isPySpace backtick = false := by decide

theorem isPySpace_newline : isPySpace '\n' = true := by decide

theorem matchClose_self : ∀ (d rest : List Char), backtick ∉ d →
    matchClose (d ++ (tripleTick ++ rest)) = some (d, rest) := by
  intro d
  induction d with
  | nil =>
    intro rest _
    show matchClose (tripleTick ++ rest) = some ([], rest)
    have hfrm : tripleTick ++ rest = backtick :: (backtick :: (backtick :: rest)) := by
      simp [tripleTick]
    rw [hfrm]
    have hsw : startsWith (backtick :: (backtick :: (backtick :: rest))) tripleTick = true := by
      simp [startsWith, tripleTick]
    simp [matchClose, hsw]
  | cons c d' ih =>
    intro rest hmem
    have hc : c ≠ backtick := by
      intro h
      exact hmem (by simp [h])
    have hd' : backtick ∉ d' := fun h => hmem (by simp [h])
    have heq : (c :: d') ++ (tripleTick ++ rest) = c :: (d' ++ (tripleTick ++ rest)) := by simp
    rw [heq]
    have hsw : startsWith (c :: (d' ++ (tripleTick ++ rest))) tripleTick = false := by
      simp [startsWith, tripleTick, hc]
    simp [matchClose, hsw, ih rest hd']

theorem matchClose_parts : ∀ (s g r : List Char), matchClose s = some (g, r) →
    s = g ++ (tripleTick ++ r) := by
  intro s
  induction s with
  | nil => intro g r h; simp [matchClose] at h
  | cons c cs ih =>
    intro g r h
    by_cases hsw : startsWith (c :: cs) tripleTick = true
    · rcases (startsWith_eq_true (c :: cs) tripleTick).mp hsw with ⟨t, ht⟩
      have hdrop : (c :: cs).drop 3 = t := by
        rw [← ht]; simp [tripleTick]
      simp only [matchClose, if_pos hsw, hdrop, Option.some.injEq, Prod.mk.injEq] at h
      rw [← h.1, ← h.2]
      simpa using ht.symm
    · simp only [matchClose, if_neg hsw] at h
      cases hm : matchClose cs with
      | none => rw [hm] at h; simp at h
      | some gr =>
        rcases gr with ⟨g', r'⟩
        rw [hm] at h
        simp only [Option.some.injEq, Prod.mk.injEq] at h
        rw [← h.1, ← h.2]
        simp [ih g' r' hm]

theorem matchClose_no_fence : ∀ (s g r : List Char), matchClose s = some (g, r) →
    ¬ ∃ u v, u ++ (tripleTick ++ v) = g := by
  intro s
  induction s with
  | nil => intro g r h; simp [matchClose] at h
  | cons c cs ih =>
    intro g r h
    by_cases hsw : startsWith (c :: cs) tripleTick = true
    · simp only [matchClose, if_pos hsw, Option.some.injEq, Prod.mk.injEq] at h
      rintro ⟨u, v, huv⟩
      rw [← h.1] at huv
      rcases List.append_eq_nil.mp huv with ⟨_, h2⟩
      rcases List.append_eq_nil.mp h2 with ⟨h3, _⟩
      simp [tripleTick] at h3
    · simp only [matchClose, if_neg hsw] at h
      cases hm : matchClose cs with
      | none => rw [hm] at h; simp at h
      | some gr =>
        rcases gr with ⟨g', r'⟩
        rw [hm] at h
        simp only [Option.some.injEq, Prod.mk.injEq] at h
        rintro ⟨u, v, huv⟩
        rw [← h.1] at huv
        cases u with
        | nil =>
          have hparts := matchClose_parts cs g' r' hm
          apply hsw
          rw [startsWith_eq_true]
          have hcg : tripleTick ++ v = c :: g' := by simpa using huv
          refine ⟨v ++ (tripleTick ++ r'), ?_⟩
          rw [← List.append_assoc, hcg, hparts]
          simp
        | cons b u' =>
          have hbc : b :: (u' ++ (tripleTick ++ v)) = c :: g' := by simpa using huv
          exact ih g' r' hm ⟨u', v, (List.cons_eq_cons.mp hbc).2⟩

theorem matchTail_parts : ∀ (s g r : List Char), matchTail s = some (g, r) →
    ∃ w, allSpace w ∧ s = w ++ ('\n' :: (g ++ (tripleTick ++ r))) := by
  intro s
  induction s with
  | nil => intro g r h; simp [matchTail] at h
  | cons c cs ih =>
    intro g r h
    by_cases hsp : isPySpace c = true
    · cases hm : matchTail cs with
      | some gr =>
        rcases gr with ⟨g', r'⟩
        simp only [matchTail, if_pos hsp, hm, Option.some.injEq, Prod.mk.injEq] at h
        rcases ih g' r' hm with ⟨w, hw, hcs⟩
        refine ⟨c :: w, ?_, ?_⟩
        · intro d hd
          rcases List.mem_cons.mp hd with h1 | h2
          · rw [h1]; exact hsp
          · exact hw d h2
        · rw [← h.1, ← h.2]
          simp [hcs]
      | none =>
        simp only [matchTail, if_pos hsp, hm] at h
        by_cases hc : c = '\n'
        · rw [if_pos hc] at h
          have hps := matchClose_parts cs g r h
          refine ⟨[], by intro d hd; simp at hd, ?_⟩
          rw [hc, hps]
          simp
        · rw [if_neg hc] at h
          simp at h
    · simp [matchTail, hsp] at h

theorem matchTail_no_fence : ∀ (s g r : List Char), matchTail s = some (g, r) →
    ¬ ∃ u v, u ++ (tripleTick ++ v) = g := by
  intro s
  induction s with
  | nil => intro g r h; simp [matchTail] at h
  | cons c cs ih =>
    intro g r h
    by_cases hsp : isPySpace c = true
    · cases hm : matchTail cs with
      | some gr =>
        rcases gr with ⟨g', r'⟩
        simp only [matchTail, if_pos hsp, hm, Option.some.injEq, Prod.mk.injEq] at h
        rw [← h.1]
        exact ih g' r' hm
      | none =>
        simp only [matchTail, if_pos hsp, hm] at h
        by_cases hc : c = '\n'
        · rw [if_pos hc] at h
          exact matchClose_no_fence cs g r h
        · rw [if_neg hc] at h
          simp at h
    · simp [matchTail, hsp] at h

theorem matchTail_body : ∀ (body : List Char), backtick ∉ body → ∀ (rest : List Char),
    matchTail (body ++ (tripleTick ++ rest)) = none ∨
    ∃ w g, body = w ++ ('\n' :: g) ∧ allSpace w ∧ backtick ∉ g ∧
      matchTail (body ++ (tripleTick ++ rest)) = some (g, rest) := by
  intro body
  induction body with
  | nil =>
    intro _ rest
    left
    have hfrm : ([] : List Char) ++ (tripleTick ++ rest) = backtick :: (backtick :: (backtick :: rest)) := by
      simp [tripleTick]
    rw [hfrm]
    simp [matchTail, isPySpace_backtick]
  | cons c b' ih =>
    intro hmem rest
    have hb' : backtick ∉ b' := fun h => hmem (by simp [h])
    have heq : (c :: b') ++ (tripleTick ++ rest) = c :: (b' ++ (tripleTick ++ rest)) := by simp
    rw [heq]
    by_cases hsp : isPySpace c = true
    · rcases ih hb' rest with hnone | ⟨w, g, hb, hw, hg, heq2⟩
      · by_cases hc : c = '\n'
        · right
          refine ⟨[], b', by rw [hc]; simp, by intro d hd; simp at hd, hb', ?_⟩
          simp [matchTail, hsp, hnone, hc, isPySpace_newline, matchClose_self b' rest hb']
        · left
          simp [matchTail, hsp, hnone, hc]
      · right
        refine ⟨c :: w, g, by simp [hb], ?_, hg, ?_⟩
        · intro d hd
          rcases List.mem_cons.mp hd with h1 | h2
          · rw [h1]; exact hsp
          · exact hw d h2
        · simp [matchTail, hsp, heq2]
    · left
      simp [matchTail, hsp]

theorem matchTail_ws : ∀ (ws : List Char), allSpace ws → ∀ (body : List Char), backtick ∉ body →
    ∀ (rest : List Char), ∃ w g, body = w ++ g ∧ allSpace w ∧
      matchTail (ws ++ ('\n' :: (body ++ (tripleTick ++ rest)))) = some (g, rest) := by
  intro ws
  induction ws with
  | nil =>
    intro _ body hb rest
    rcases matchTail_body body hb rest with hnone | ⟨w, g, hbdy, hw, _, heq⟩
    · refine ⟨[], body, by simp, by intro d hd; simp at hd, ?_⟩
      simp [matchTail, isPySpace_newline, hnone, matchClose_self body rest hb]
    · refine ⟨w ++ ['\n'], g, by simp [hbdy], ?_, ?_⟩
      · intro d hd
        rcases List.mem_append.mp hd with h1 | h2
        · exact hw d h1
        · simp at h2
          rw [h2]
          exact isPySpace_newline
      · simp [matchTail, isPySpace_newline, heq]
  | cons c ws' ih =>
    intro hws body hb rest
    have hsp : isPySpace c = true := hws c (by simp)
    have hws' : allSpace ws' := fun d hd => hws d (by simp [hd])
    rcases ih hws' body hb rest with ⟨w, g, hbdy, hw, heq⟩
    refine ⟨w, g, hbdy, hw, ?_⟩
    have heq2 : (c :: ws') ++ ('\n' :: (body ++ (tripleTick ++ rest)))
        = c :: (ws' ++ ('\n' :: (body ++ (tripleTick ++ rest)))) := by simp
    rw [heq2]
    simp [matchTail, hsp, heq]

theorem tagBranch_pos (tagPat tag : List Char) (htag : tag.map Char.toLower = tagPat.map Char.toLower)
    (ws : List Char) (hws : allSpace ws) (body : List Char) (hb : backtick ∉ body) (rest : List Char) :
    ∃ w g, body = w ++ g ∧ allSpace w ∧
      tagBranch tagPat (tag ++ (ws ++ ('\n' :: (body ++ (tripleTick ++ rest))))) = some (g, rest) := by
  rcases matchTail_ws ws hws body hb rest with ⟨w, g, hbdy, hw, heq⟩
  refine ⟨w, g, hbdy, hw, ?_⟩
  simp [tagBranch, dropLitCI_exact tagPat tag htag, heq]

theorem tagBranch_headFail (c0 : Char) (pat : List Char) (a : Char) (s : List Char)
    (h : Char.toLower a ≠ Char.toLower c0) : tagBranch (c0 :: pat) (a :: s) = none := by
  simp [tagBranch, dropLitCI, h]

theorem notSpace_of_toLower_notSpace (x c : Char) (hx : Char.toLower x = c)
    (hc : isPySpace c = false) : isPySpace x = false := by
  cases hxx : isPySpace x with
  | false => rfl
  | true =>
    have hfix := isPySpace_toLower x hxx
    rw [hfix] at hx
    rw [hx] at hxx
    rw [hxx] at hc
    exact absurd hc (by simp)

theorem matchFenceAt_eq (s1 : List Char) :
    matchFenceAt (tripleTick ++ s1) =
      (match tagBranch "bash".toList s1 with
       | some r => some r
       | none =>
         match tagBranch "sh".toList s1 with
         | some r => some r
         | none => tagBranch "shell".toList s1) := by
  unfold matchFenceAt
  rw [dropLit_self]

theorem fence_at (f : Fence) (rest : List Char) (hf : WFfence f) :
    ∃ w g, f.body = w ++ g ∧ allSpace w ∧
      matchFenceAt (renderBlock f ++ rest) = some (g, rest) := by
  rcases f with ⟨tag, ws0, body0⟩
  rcases hf with ⟨htag, hws, hb⟩
  simp only at htag hws hb
  have hren : renderBlock ⟨tag, ws0, body0⟩ ++ rest
      = tripleTick ++ (tag ++ (ws0 ++ ('\n' :: (body0 ++ (tripleTick ++ rest))))) := by
    simp [renderBlock, List.append_assoc]
  rcases htag with h1 | h2 | h3
  · have hpat : ("bash".toList).map Char.toLower = "bash".toList := by decide
    have htg : tag.map Char.toLower = ("bash".toList).map Char.toLower := by rw [h1, hpat]
    rcases tagBranch_pos "bash".toList tag htg ws0 hws body0 hb rest with ⟨w, g, hbdy, hw, heq⟩
    refine ⟨w, g, hbdy, hw, ?_⟩
    rw [hren, matchFenceAt_eq, heq]
  · rcases tag with _ | ⟨a, _ | ⟨b, _ | ⟨x, t⟩⟩⟩ <;> simp at h2
    have hbash : tagBranch "bash".toList ([a, b] ++ (ws0 ++ ('\n' :: (body0 ++ (tripleTick ++ rest))))) = none := by
      have hfrm : ("bash".toList) = 'b' :: "ash".toList := rfl
      have hfrm2 : [a, b] ++ (ws0 ++ ('\n' :: (body0 ++ (tripleTick ++ rest))))
          = a :: ([b] ++ (ws0 ++ ('\n' :: (body0 ++ (tripleTick ++ rest))))) := by simp
      rw [hfrm, hfrm2]
      exact tagBranch_headFail 'b' "ash".toList a _ (by rw [h2.1]; decide)
    have hpat : ("sh".toList).map Char.toLower = "sh".toList := by decide
    have htg : [a, b].map Char.toLower = ("sh".toList).map Char.toLower := by
      rw [hpat]
      simp [h2.1, h2.2]
    rcases tagBranch_pos "sh".toList [a, b] htg ws0 hws body0 hb rest with ⟨w, g, hbdy, hw, heq⟩
    refine ⟨w, g, hbdy, hw, ?_⟩
    rw [hren, matchFenceAt_eq, hbash, heq]
  · rcases tag with _ | ⟨a, _ | ⟨b, _ | ⟨x, _ | ⟨d, _ | ⟨e, _ | ⟨f6, t⟩⟩⟩⟩⟩⟩ <;> simp at h3
    obtain ⟨ha, hb2, hx, hd, he⟩ := h3
    have hbash : tagBranch "bash".toList ([a, b, x, d, e] ++ (ws0 ++ ('\n' :: (body0 ++ (tripleTick ++ rest))))) = none := by
      have hfrm : ("bash".toList) = 'b' :: "ash".toList := rfl
      have hfrm2 : [a, b, x, d, e] ++ (ws0 ++ ('\n' :: (body0 ++ (tripleTick ++ rest))))
          = a :: ([b, x, d, e] ++ (ws0 ++ ('\n' :: (body0 ++ (tripleTick ++ rest))))) := by simp
      rw [hfrm, hfrm2]
      exact tagBranch_headFail 'b' "ash".toList a _ (by rw [ha]; decide)
    have hsh : tagBranch "sh".toList ([a, b, x, d, e] ++ (ws0 ++ ('\n' :: (body0 ++ (tripleTick ++ rest))))) = none := by
      have hxs : isPySpace x = false := notSpace_of_toLower_notSpace x 'e' hx (by decide)
      have hlow : Char.toLower a = Char.toLower 's' := by rw [ha]; decide
      have hlow2 : Char.toLower b = Char.toLower 'h' := by rw [hb2]; decide
      simp [tagBranch, dropLitCI, hlow, hlow2, matchTail, hxs]
    have hpat : ("shell".toList).map Char.toLower = "shell".toList := by decide
    have htg : [a, b, x, d, e].map Char.toLower = ("shell".toList).map Char.toLower := by
      rw [hpat]
      simp [ha, hb2, hx, hd, he]
    rcases tagBranch_pos "shell".toList [a, b, x, d, e] htg ws0 hws body0 hb rest with ⟨w, g, hbdy, hw, heq⟩
    refine ⟨w, g, hbdy, hw, ?_⟩
    rw [hren, matchFenceAt_eq, hbash, hsh, heq]

theorem tagBranch_shrink (pat s1 g r : List Char) (h : tagBranch pat s1 = some (g, r)) :
    r.length < s1.length := by
  unfold tagBranch at h
  cases hd : dropLitCI pat s1 with
  | none => rw [hd] at h; simp at h
  | some s2 =>
    rw [hd] at h
    have h1 := dropLitCI_length pat s1 s2 hd
    rcases matchTail_parts s2 g r h with ⟨w, _, hs2⟩
    have h2 := congrArg List.length hs2
    simp [tripleTick] at h2
    omega

theorem tagBranch_no_fence (pat s1 g r : List Char) (h : tagBranch pat s1 = some (g, r)) :
    ¬ ∃ u v, u ++ (tripleTick ++ v) = g := by
  unfold tagBranch at h
  cases hd : dropLitCI pat s1 with
  | none => rw [hd] at h; simp at h
  | some s2 =>
    rw [hd] at h
    exact matchTail_no_fence s2 g r h

theorem matchFenceAt_shrink (s g r : List Char) (h : matchFenceAt s = some (g, r)) :
    r.length < s.length := by
  cases hd : dropLit tripleTick s with
  | none => simp [matchFenceAt, hd] at h
  | some s1 =>
    simp only [matchFenceAt, hd] at h
    have hlen1 : s.length = 3 + s1.length := by
      have := dropLit_length tripleTick s s1 hd
      simpa [tripleTick] using this
    cases hb1 : tagBranch "bash".toList s1 with
    | some gr =>
      rcases gr with ⟨g1, r1⟩
      simp only [hb1, Option.some.injEq, Prod.mk.injEq] at h
      have hs := tagBranch_shrink "bash".toList s1 g1 r1 hb1
      rw [← h.2]
      omega
    | none =>
      simp only [hb1] at h
      cases hb2 : tagBranch "sh".toList s1 with
      | some gr =>
        rcases gr with ⟨g1, r1⟩
        simp only [hb2, Option.some.injEq, Prod.mk.injEq] at h
        have hs := tagBranch_shrink "sh".toList s1 g1 r1 hb2
        rw [← h.2]
        omega
      | none =>
        simp only [hb2] at h
        have hs := tagBranch_shrink "shell".toList s1 g r h
        omega

theorem matchFenceAt_no_fence (s g r : List Char) (h : matchFenceAt s = some (g, r)) :
    ¬ ∃ u v, u ++ (tripleTick ++ v) = g := by
  cases hd : dropLit tripleTick s with
  | none => simp [matchFenceAt, hd] at h
  | some s1 =>
    simp only [matchFenceAt, hd] at h
    cases hb1 : tagBranch "bash".toList s1 with
    | some gr =>
      rcases gr with ⟨g1, r1⟩
      simp only [hb1, Option.some.injEq, Prod.mk.injEq] at h
      rw [← h.1]
      exact tagBranch_no_fence "bash".toList s1 g1 r1 hb1
    | none =>
      simp only [hb1] at h
      cases hb2 : tagBranch "sh".toList s1 with
      | some gr =>
        rcases gr with ⟨g1, r1⟩
        simp only [hb2, Option.some.injEq, Prod.mk.injEq] at h
        rw [← h.1]
        exact tagBranch_no_fence "sh".toList s1 g1 r1 hb2
      | none =>
        simp only [hb2] at h
        exact tagBranch_no_fence "shell".toList s1 g r h

theorem findAllGo_fuel : ∀ (fuel fuel' : Nat) (s : List Char), s.length ≤ fuel → s.length ≤ fuel' →
    findAllGo fuel s = findAllGo fuel' s := by
  intro fuel
  induction fuel with
  | zero =>
    intro fuel' s h1 _
    have hs : s = [] := List.eq_nil_of_length_eq_zero (Nat.le_zero.mp h1)
    subst hs
    cases fuel' <;> rfl
  | succ n ih =>
    intro fuel' s h1 h2
    cases s with
    | nil => cases fuel' <;> rfl
    | cons c cs =>
      cases fuel' with
      | zero => simp at h2
      | succ m =>
        simp only [List.length_cons] at h1 h2
        cases hm : matchFenceAt (c :: cs) with
        | some gr =>
          rcases gr with ⟨g, rest⟩
          have hr : rest.length < cs.length + 1 := by
            have := matchFenceAt_shrink (c :: cs) g rest hm
            simpa using this
          simp only [findAllGo, hm]
          rw [ih m rest (by omega) (by omega)]
        | none =>
          simp only [findAllGo, hm]
          exact ih m cs (by omega) (by omega)

theorem findAll_cons_some (c : Char) (cs g rest : List Char)
    (h : matchFenceAt (c :: cs) = some (g, rest)) : findAll (c :: cs) = g :: findAll rest := by
  have hr : rest.length < cs.length + 1 := by
    have := matchFenceAt_shrink (c :: cs) g rest h
    simpa using this
  show findAllGo (c :: cs).length (c :: cs) = g :: findAll rest
  simp only [List.length_cons, findAllGo, h]
  rw [findAllGo_fuel cs.length rest.length rest (by omega) (le_refl _)]
  rfl

theorem findAll_cons_none (c : Char) (cs : List Char)
    (h : matchFenceAt (c :: cs) = none) : findAll (c :: cs) = findAll cs := by
  show findAllGo (c :: cs).length (c :: cs) = findAll cs
  simp only [List.length_cons, findAllGo, h]
  rfl

theorem matchFenceAt_not_backtick (c : Char) (cs : List Char) (h : c ≠ backtick) :
    matchFenceAt (c :: cs) = none := by
  unfold matchFenceAt
  have hd : dropLit tripleTick (c :: cs) = none := by
    simp [tripleTick, dropLit, h]
  rw [hd]

theorem findAll_skip : ∀ (seg : List Char), backtick ∉ seg →
    ∀ (t : List Char), findAll (seg ++ t) = findAll t := by
  intro seg
  induction seg with
  | nil => intro _ t; simp
  | cons c s' ih =>
    intro hseg t
    have hc : c ≠ backtick := fun h => hseg (by simp [h])
    have hs' : backtick ∉ s' := fun h => hseg (by simp [h])
    rw [List.cons_append, findAll_cons_none c (s' ++ t) (matchFenceAt_not_backtick c _ hc)]
    exact ih hs' t

theorem findAllGo_no_fence : ∀ (fuel : Nat) (s : List Char), s.length ≤ fuel →
    ∀ m ∈ findAllGo fuel s, ¬ ∃ u v, u ++ (tripleTick ++ v) = m := by
  intro fuel
  induction fuel with
  | zero =>
    intro s h m hm
    have hs : s = [] := List.eq_nil_of_length_eq_zero (Nat.le_zero.mp h)
    subst hs
    simp [findAllGo] at hm
  | succ n ih =>
    intro s h m hm
    cases s with
    | nil => simp [findAllGo] at hm
    | cons c cs =>
      simp only [List.length_cons] at h
      cases hf : matchFenceAt (c :: cs) with
      | some gr =>
        rcases gr with ⟨g, rest⟩
        simp only [findAllGo, hf, List.mem_cons] at hm
        rcases hm with h1 | h2
        · rw [h1]
          exact matchFenceAt_no_fence (c :: cs) g rest hf
        · have hr : rest.length < cs.length + 1 := by
            have := matchFenceAt_shrink (c :: cs) g rest hf
            simpa using this
          exact ih rest (by omega) m h2
      | none =>
        simp only [findAllGo, hf] at hm
        exact ih cs (by omega) m hm

theorem findAll_no_fence (s : List Char) (m : List Char) (hm : m ∈ findAll s) :
    ¬ ∃ u v, u ++ (tripleTick ++ v) = m :=
  findAllGo_no_fence s.length s (le_refl _) m hm

theorem findAll_some (s g rest : List Char) (h : matchFenceAt s = some (g, rest)) :
    findAll s = g :: findAll rest := by
  cases s with
  | nil => simp [matchFenceAt, tripleTick, dropLit] at h
  | cons c cs => exact findAll_cons_some c cs g rest h

/-- C1: for every Markdown input consisting of `N` well-formed fenced code
blocks tagged `bash`/`sh`/`shell` (case-insensitively), separated by
backtick-free segments and with backtick-free bodies, the extraction step
(the `re.findall` scan followed by `str.strip`, before any exclusion
filtering) yields exactly `N` block texts, in document order, each equal
to the inter-fence text with leading and trailing whitespace trimmed. -/
theorem extract_blocks_document_order : ∀ (L : List (Fence × List Char)) (s0 : List Char),
    backtick ∉ s0 → (∀ p ∈ L, WFfence p.1 ∧ backtick ∉ p.2) →
    (findAll (render s0 L)).map pyStrip = L.map (fun p => pyStrip p.1.body) := by
  intro L
  induction L with
  | nil =>
    intro s0 h0 _
    show (findAll (render s0 [])).map pyStrip = []
    have hempty : findAll s0 = [] := by
      have := findAll_skip s0 h0 []
      simpa using this
    simp [render, hempty]
  | cons p L' ih =>
    rcases p with ⟨f, seg⟩
    intro s0 h0 hL
    have hf : WFfence f := (hL (f, seg) (by simp)).1
    have hseg : backtick ∉ seg := (hL (f, seg) (by simp)).2
    have hL' : ∀ q ∈ L', WFfence q.1 ∧ backtick ∉ q.2 := fun q hq => hL q (by simp [hq])
    rcases fence_at f (render seg L') hf with ⟨w, g, hbdy, hw, heq⟩
    rw [show render s0 ((f, seg) :: L') = s0 ++ (renderBlock f ++ render seg L') from rfl]
    rw [findAll_skip s0 h0]
    rw [findAll_some _ g (render seg L') heq]
    have hpg : pyStrip g = pyStrip f.body := by
      rw [hbdy, pyStrip_ws_append w g hw]
    simp [hpg, ih seg hseg hL']

/-- Witness for C1 at a concrete two-block document. -/
theorem extract_blocks_document_order_witness :
    backtick ∉ "Intro.\n".toList ∧
    (∀ p ∈ ([(⟨"bash".toList, [], "echo hi".toList⟩, " mid ".toList),
             (⟨"SH".toList, [' '], " ls -la ".toList⟩, "tail".toList)] : List (Fence × List Char)),
       WFfence p.1 ∧ backtick ∉ p.2) ∧
    (findAll (render "Intro.\n".toList
        [(⟨"bash".toList, [], "echo hi".toList⟩, " mid ".toList),
         (⟨"SH".toList, [' '], " ls -la ".toList⟩, "tail".toList)])).map pyStrip
      = [pyStrip "echo hi".toList, pyStrip " ls -la ".toList] :=
  ⟨by decide, by decide, by
    have h := extract_blocks_document_order
      [(⟨"bash".toList, [], "echo hi".toList⟩, " mid ".toList),
       (⟨"SH".toList, [' '], " ls -la ".toList⟩, "tail".toList)]
      "Intro.\n".toList (by decide) (by decide)
    simpa using h⟩

theorem extract_mem (md : List Char) (excl : List (List Char)) (bk : List Char) (h : bk ∈ extract_bash_code_blocks md excl) :
    shouldExclude excl bk = false ∧ bk ≠ [] ∧ ∃ m ∈ findAll md, bk = pyStrip m := by
  simp only [extract_bash_code_blocks, List.mem_filterMap] at h
  rcases h with ⟨m, hm, hsome⟩
  split_ifs at hsome with hc
  have hbk : pyStrip m = bk := by simpa using hsome
  exact ⟨by rw [← hbk]; exact hc.1, by rw [← hbk]; exact hc.2, m, hm, hbk.symm⟩

/-- C2: a block text is marked for exclusion iff its lowercase form starts
with the lowercase form of some configured entry; this is a plain
string-prefix test, so a partial-word match such as entry `ssr` against
block `ssrDeploy ...` excludes; and every block the filter keeps is an
untouched stripped match of the extractor. -/
theorem exclusion_filter_semantics :
    (∀ (excl : List (List Char)) (b : List Char),
        shouldExclude excl b = true ↔ ∃ p ∈ excl, ∃ t, pyLower p ++ t = pyLower b)
    ∧ shouldExclude ["ssr".toList] "ssrDeploy --target prod".toList = true
    ∧ (∀ (md : List Char) (excl : List (List Char)) (bk : List Char), bk ∈ extract_bash_code_blocks md excl →
        shouldExclude excl bk = false ∧ ∃ m ∈ findAll md, bk = pyStrip m) := by
  refine ⟨?_, by decide, ?_⟩
  · intro excl b
    simp only [shouldExclude, List.any_eq_true]
    constructor
    · rintro ⟨p, hp, hsw⟩
      exact ⟨p, hp, (startsWith_eq_true (pyLower b) (pyLower p)).mp hsw⟩
    · rintro ⟨p, hp, ht⟩
      exact ⟨p, hp, (startsWith_eq_true (pyLower b) (pyLower p)).mpr ht⟩
  · intro md excl bk h
    rcases extract_mem md excl bk h with ⟨h1, _, h3⟩
    exact ⟨h1, h3⟩

/-- Witness for C2 on a concrete page and exclusion list. -/
theorem exclusion_filter_semantics_witness :
    shouldExclude ["ssr".toList] "echo hi".toList = false ∧
    ∃ m ∈ findAll "```bash\necho hi\n```".toList, "echo hi".toList = pyStrip m :=
  exclusion_filter_semantics.2.2 "```bash\necho hi\n```".toList ["ssr".toList]
    "echo hi".toList (by decide)

/-- C9: no block text returned by the extractor contains the fence marker:
each match's group ends at the first fence marker after its opening
fence, so a fenced region containing a literal triple backtick is
truncated there, as the concrete second conjunct shows. -/
theorem no_fence_marker_in_blocks :
    (∀ (md : List Char) (excl : List (List Char)) (bk : List Char), bk ∈ extract_bash_code_blocks md excl →
        ¬ ∃ u v, u ++ (tripleTick ++ v) = bk)
    ∧ extract_bash_code_blocks ("```bash\na\n```b```".toList) [] = ["a".toList] := by
  refine ⟨?_, by decide⟩
  intro md excl bk h
  rcases extract_mem md excl bk h with ⟨_, _, m, hm, hbk⟩
  rintro ⟨u, v, huv⟩
  rcases pyStrip_parts m with ⟨x, y, hxy⟩
  apply findAll_no_fence md m hm
  refine ⟨x ++ u, v ++ y, ?_⟩
  have hmid : (x ++ u) ++ (tripleTick ++ (v ++ y)) = x ++ (pyStrip m ++ y) := by
    rw [← hbk, ← huv]
    simp [List.append_assoc]
  rw [hmid, hxy]

/-- Witness for C9 at the truncation example. -/
theorem no_fence_marker_in_blocks_witness :
    ¬ ∃ u v, u ++ (tripleTick ++ v) = "a".toList :=
  no_fence_marker_in_blocks.1 "```bash\na\n```b```".toList [] "a".toList (by decide)

theorem fetchLoop_step (net : List Char → Option (List Char) → FetchStep)
    (token : Option (List Char)) (url : List Char) (rest : List (List Char)) :
    fetchLoop net token (url :: rest) =
      (match candidateResult url (net url token) with
       | some c => (some c, [url])
       | none => ((fetchLoop net token rest).1, url :: (fetchLoop net token rest).2)) := by
  cases hn : net url token with
  | exn => simp [fetchLoop, candidateResult, hn]
  | resp st txt jc =>
    by_cases hst : st = 200
    · by_cases hc : pyContains url apiV4marker = true
      · cases jc with
        | some cf => simp [fetchLoop, candidateResult, hn, hst, hc]
        | none => simp [fetchLoop, candidateResult, hn, hst, hc]
      · simp [fetchLoop, candidateResult, hn, hst, hc]
    · simp [fetchLoop, candidateResult, hn, hst]

theorem fetchLoop_allFail (net : List Char → Option (List Char) → FetchStep)
    (token : Option (List Char)) : ∀ (us : List (List Char)),
    (∀ u ∈ us, candidateResult u (net u token) = none) →
    fetchLoop net token us = (none, us) := by
  intro us
  induction us with
  | nil => intro _; rfl
  | cons url rest ih =>
    intro h
    rw [fetchLoop_step, h url (by simp), ih (fun u hu => h u (by simp [hu]))]

theorem fetchLoop_firstSuccess (net : List Char → Option (List Char) → FetchStep)
    (token : Option (List Char)) : ∀ (pre : List (List Char)) (u : List Char)
    (rest : List (List Char)) (c : List Char),
    (∀ v ∈ pre, candidateResult v (net v token) = none) →
    candidateResult u (net u token) = some c →
    fetchLoop net token (pre ++ u :: rest) = (some c, pre ++ [u]) := by
  intro pre
  induction pre with
  | nil =>
    intro u rest c _ hu
    rw [List.nil_append, fetchLoop_step, hu]
    rfl
  | cons v pre' ih =>
    intro u rest c hpre hu
    rw [List.cons_append, fetchLoop_step, hpre v (by simp),
      ih u rest c (fun x hx => hpre x (by simp [hx])) hu]
    rfl

/-- C5: a transport failure on one candidate — a raised request exception,
or a 200 response of an API-classified candidate whose body fails to parse
as JSON — is absorbed by the loop, which issues the request, records it,
and moves on to the remaining candidates. -/
theorem transport_error_try_next (net : List Char → Option (List Char) → FetchStep)
    (token : Option (List Char)) (url : List Char) (rest : List (List Char)) (txt : List Char) :
    (net url token = FetchStep.exn →
       fetchLoop net token (url :: rest)
         = ((fetchLoop net token rest).1, url :: (fetchLoop net token rest).2))
    ∧ (net url token = FetchStep.resp 200 txt none → pyContains url apiV4marker = true →
       fetchLoop net token (url :: rest)
         = ((fetchLoop net token rest).1, url :: (fetchLoop net token rest).2)) := by
  constructor
  · intro h
    rw [fetchLoop_step, h]
    rfl
  · intro h hc
    rw [fetchLoop_step, h]
    simp [candidateResult, hc]

/-- Witness for C5: an exception-raising candidate and a 200 API candidate
with an unparseable body both fall through to the rest of the loop. -/
theorem transport_error_try_next_witness :
    (fetchLoop netExnAll none ["x".toList]
       = ((fetchLoop netExnAll none []).1, "x".toList :: (fetchLoop netExnAll none []).2))
    ∧ (fetchLoop netC6 none [urlRawSlug "api/v4".toList "Home".toList]
       = ((fetchLoop netC6 none []).1,
          urlRawSlug "api/v4".toList "Home".toList :: (fetchLoop netC6 none []).2)) :=
  ⟨(transport_error_try_next netExnAll none "x".toList [] []).1 rfl,
   (transport_error_try_next netC6 none (urlRawSlug "api/v4".toList "Home".toList) []
      "RAW".toList).2 (by decide) (by decide)⟩

/-- Counterexample to C3 as stated: on `netC3` the first candidate's
response status is 200 (with a body that fails to parse as JSON), yet the
fetcher does not return that candidate's content — it issues a request to
the distinct second candidate and returns its content instead. -/
theorem fetch_first_success_cx :
    netC3 (urlApiSlug "g/p".toList "My Page".toList) none = FetchStep.resp 200 "bad".toList none
    ∧ fetchLoop netC3 none (wikiUrls "g/p".toList "My Page".toList)
        = (some "OK".toList,
           [urlApiSlug "g/p".toList "My Page".toList, urlApiPlain "g/p".toList "My Page".toList])
    ∧ urlApiSlug "g/p".toList "My Page".toList ≠ urlApiPlain "g/p".toList "My Page".toList :=
  ⟨by decide, by decide, by decide⟩

/-- C3 (amended): the fetcher tries the candidates strictly in resolver
order and returns the content of the first successful candidate — success
meaning status 200 and, for an API-classified candidate, a parseable
body — issuing no request to any later candidate: when the first
candidate fails and the second succeeds with content `c`, the result is
`c` and the request trace is exactly the first two candidate URLs. -/
theorem fetch_first_success_amended (repo page : List Char) (token : Option (List Char))
    (net : List Char → Option (List Char) → FetchStep) (c : List Char)
    (h1 : candidateResult (urlApiSlug repo page) (net (urlApiSlug repo page) token) = none)
    (h2 : candidateResult (urlApiPlain repo page) (net (urlApiPlain repo page) token) = some c) :
    fetchLoop net token (wikiUrls repo page)
      = (some c, [urlApiSlug repo page, urlApiPlain repo page])
    ∧ fetch_wiki_page repo page token net = some c := by
  have h := fetchLoop_firstSuccess net token [urlApiSlug repo page] (urlApiPlain repo page)
    [urlRawSlug repo page, urlRawPlain repo page] c
    (by intro v hv; simp only [List.mem_singleton] at hv; rw [hv]; exact h1) h2
  constructor
  · exact h
  · show (fetchLoop net token (wikiUrls repo page)).1 = some c
    have heq : fetchLoop net token (wikiUrls repo page)
        = (some c, [urlApiSlug repo page, urlApiPlain repo page]) := h
    rw [heq]

/-- Witness for the amended C3 on a concrete network oracle. -/
theorem fetch_first_success_amended_witness :
    fetchLoop netC3w none (wikiUrls "g/p".toList "My Page".toList)
      = (some "OK".toList,
         [urlApiSlug "g/p".toList "My Page".toList, urlApiPlain "g/p".toList "My Page".toList])
    ∧ fetch_wiki_page "g/p".toList "My Page".toList none netC3w = some "OK".toList :=
  fetch_first_success_amended "g/p".toList "My Page".toList none netC3w "OK".toList
    (by decide) (by decide)

/-- C4: when every candidate fails, the fetcher returns the explicit
`none` marker (Python `None`), which is distinct from the empty string;
the orchestrator then records that page with an empty block list and
continues with the remaining pages. -/
theorem fetch_total_failure_recorded (repo page p2 : List Char) (token : Option (List Char))
    (excl : List (List Char)) (net : List Char → Option (List Char) → FetchStep)
    (hall : ∀ u ∈ wikiUrls repo page, candidateResult u (net u token) = none)
    (hne : page ≠ p2) :
    fetch_wiki_page repo page token net = none
    ∧ (none : Option (List Char)) ≠ some []
    ∧ main_results [⟨repo, [page, p2]⟩] excl token net
        = [(repo, [(page, []), (p2, pageBlocks net token excl repo p2)])] := by
  have hf : fetchLoop net token (wikiUrls repo page) = (none, wikiUrls repo page) :=
    fetchLoop_allFail net token (wikiUrls repo page) hall
  have hfw : fetch_wiki_page repo page token net = none := by
    show (fetchLoop net token (wikiUrls repo page)).1 = none
    rw [hf]
  refine ⟨hfw, by simp, ?_⟩
  have hpb : pageBlocks net token excl repo page = [] := by
    unfold pageBlocks
    rw [hfw]
  unfold main_results processEntry
  simp only [List.foldl_cons, List.foldl_nil]
  rw [hpb]
  simp [dictSet, setPage, hne]

/-- Witness for C4 on the all-raising network oracle. -/
theorem fetch_total_failure_recorded_witness :
    fetch_wiki_page "g/p".toList "A".toList none netExnAll = none
    ∧ (none : Option (List Char)) ≠ some []
    ∧ main_results [⟨"g/p".toList, ["A".toList, "B".toList]⟩] [] none netExnAll
        = [("g/p".toList,
            [("A".toList, []),
             ("B".toList, pageBlocks netExnAll none [] "g/p".toList "B".toList)])] :=
  fetch_total_failure_recorded "g/p".toList "A".toList "B".toList none [] netExnAll
    (by decide) (by decide)

theorem apiUrl_marker (repo page : List Char) :
    pyContains (urlApiSlug repo page) apiV4marker = true
    ∧ pyContains (urlApiPlain repo page) apiV4marker = true :=
  ⟨pyContains_append_left "https://gitlab.com/api/v4/projects/".toList
     (encoded_repo repo ++ ("/wikis/".toList ++ page_slug page)) apiV4marker (by decide),
   pyContains_append_left "https://gitlab.com/api/v4/projects/".toList
     (encoded_repo repo ++ ("/wikis/".toList ++ page)) apiV4marker (by decide)⟩

/-- Counterexample to C6 as stated: with project identifier `api/v4`, the
third (raw-content) candidate URL contains `"/api/v4/"`, so on a 200
response the fetcher treats it as an API candidate: on `netC6` that
candidate answers 200 with body `"RAW"`, yet the fetcher returns `none`
instead of the body text — the classification does not depend only on
which candidate it is. -/
theorem candidate_classification_cx :
    netC6 (urlRawSlug "api/v4".toList "Home".toList) none
      = FetchStep.resp 200 "RAW".toList none
    ∧ pyContains (urlRawSlug "api/v4".toList "Home".toList) apiV4marker = true
    ∧ fetch_wiki_page "api/v4".toList "Home".toList none netC6 = none :=
  ⟨by decide, by decide, by decide⟩

/-- C6 (amended): the two API candidates always contain the `"/api/v4/"`
marker, and a success there returns the parsed body's content field
(empty when absent); a success on the third (raw) candidate returns the
body text verbatim provided its URL does not contain the marker — which
can fail only when the project identifier or page name makes the marker
appear in the raw URL. -/
theorem candidate_classification_amended (repo page : List Char) (token : Option (List Char))
    (net : List Char → Option (List Char) → FetchStep) (txt : List Char)
    (jc : Option (Option (List Char))) (cf : Option (List Char)) :
    (pyContains (urlApiSlug repo page) apiV4marker = true
     ∧ pyContains (urlApiPlain repo page) apiV4marker = true)
    ∧ (net (urlApiSlug repo page) token = FetchStep.resp 200 txt (some cf) →
        fetch_wiki_page repo page token net = some (cf.getD []))
    ∧ (candidateResult (urlApiSlug repo page) (net (urlApiSlug repo page) token) = none →
       candidateResult (urlApiPlain repo page) (net (urlApiPlain repo page) token) = none →
       pyContains (urlRawSlug repo page) apiV4marker = false →
       net (urlRawSlug repo page) token = FetchStep.resp 200 txt jc →
       fetch_wiki_page repo page token net = some txt) := by
  refine ⟨apiUrl_marker repo page, ?_, ?_⟩
  · intro h
    have hcr : candidateResult (urlApiSlug repo page) (net (urlApiSlug repo page) token)
        = some (cf.getD []) := by
      rw [h]
      simp [candidateResult, (apiUrl_marker repo page).1]
    have hstep := fetchLoop_firstSuccess net token [] (urlApiSlug repo page)
      [urlApiPlain repo page, urlRawSlug repo page, urlRawPlain repo page] (cf.getD [])
      (by intro v hv; simp at hv) hcr
    show (fetchLoop net token (wikiUrls repo page)).1 = some (cf.getD [])
    have heq : fetchLoop net token (wikiUrls repo page)
        = (some (cf.getD []), [urlApiSlug repo page]) := hstep
    rw [heq]
  · intro hf1 hf2 hraw hnet
    have hcr : candidateResult (urlRawSlug repo page) (net (urlRawSlug repo page) token)
        = some txt := by
      rw [hnet]
      simp [candidateResult, hraw]
    have hstep := fetchLoop_firstSuccess net token
      [urlApiSlug repo page, urlApiPlain repo page] (urlRawSlug repo page)
      [urlRawPlain repo page] txt
      (by
        intro v hv
        simp only [List.mem_cons, List.mem_singleton, List.not_mem_nil, or_false] at hv
        rcases hv with h | h
        · rw [h]; exact hf1
        · rw [h]; exact hf2) hcr
    show (fetchLoop net token (wikiUrls repo page)).1 = some txt
    have heq : fetchLoop net token (wikiUrls repo page)
        = (some txt, [urlApiSlug repo page, urlApiPlain repo page, urlRawSlug repo page]) := hstep
    rw [heq]

/-- Witness for the amended C6: a raw candidate without the marker
returns its body verbatim. -/
theorem candidate_classification_amended_witness :
    fetch_wiki_page "g/p".toList "Home".toList none netC6w = some "RAW".toList :=
  (candidate_classification_amended "g/p".toList "Home".toList none netC6w "RAW".toList
      none none).2.2 (by decide) (by decide) (by decide) (by decide)

/-- C10: a page fetched successfully with empty content is recorded with
an empty block list for every exclusion configuration, exactly like a page
whose every candidate failed — the two are indistinguishable in the
ResultSet. -/
theorem empty_page_indistinguishable (repo page : List Char) (token : Option (List Char))
    (excl : List (List Char))
    (net net' : List Char → Option (List Char) → FetchStep)
    (h : fetch_wiki_page repo page token net = some [])
    (h' : fetch_wiki_page repo page token net' = none) :
    pageBlocks net token excl repo page = []
    ∧ pageBlocks net' token excl repo page = []
    ∧ pageBlocks net token excl repo page = pageBlocks net' token excl repo page := by
  have h1 : pageBlocks net token excl repo page = [] := by
    unfold pageBlocks
    rw [h]
    simp
  have h2 : pageBlocks net' token excl repo page = [] := by
    unfold pageBlocks
    rw [h']
  exact ⟨h1, h2, by rw [h1, h2]⟩

/-- Witness for C10: an empty-content success and a total failure yield
the same empty record. -/
theorem empty_page_indistinguishable_witness :
    pageBlocks netEmpty200 none [] "g/p".toList "Home".toList = []
    ∧ pageBlocks netExnAll none [] "g/p".toList "Home".toList = []
    ∧ pageBlocks netEmpty200 none [] "g/p".toList "Home".toList
        = pageBlocks netExnAll none [] "g/p".toList "Home".toList :=
  empty_page_indistinguishable "g/p".toList "Home".toList none [] netEmpty200 netExnAll
    (by decide) (by decide)

theorem dictLookup_set_self {β : Type} : ∀ (d : List (List Char × β)) (k : List Char) (v : β),
    dictLookup (dictSet d k v) k = some v := by
  intro d k v
  induction d with
  | nil => simp [dictSet, dictLookup]
  | cons e d' ih =>
    rcases e with ⟨k', v'⟩
    by_cases hk : k' = k
    · simp [dictSet, hk, dictLookup]
    · simp [dictSet, hk, dictLookup, ih]

theorem dictLookup_set_other {β : Type} : ∀ (d : List (List Char × β)) (k k' : List Char) (v : β),
    k' ≠ k → dictLookup (dictSet d k v) k' = dictLookup d k' := by
  intro d
  induction d with
  | nil =>
    intro k k' v hne
    have hkk : ¬ (k = k') := fun h => hne h.symm
    show (if k = k' then some v else dictLookup [] k') = dictLookup [] k'
    rw [if_neg hkk]
  | cons e d' ih =>
    intro k k' v hne
    rcases e with ⟨a, b⟩
    have hkk : ¬ (k = k') := fun h => hne h.symm
    by_cases ha : a = k
    · rw [show dictSet ((a, b) :: d') k v = (k, v) :: d' from by simp [dictSet, ha]]
      show (if k = k' then some v else dictLookup d' k') = dictLookup ((a, b) :: d') k'
      rw [if_neg hkk]
      show dictLookup d' k' = (if a = k' then some b else dictLookup d' k')
      have hak' : ¬ (a = k') := by rw [ha]; exact hkk
      rw [if_neg hak']
    · rw [show dictSet ((a, b) :: d') k v = (a, b) :: dictSet d' k v from by simp [dictSet, ha]]
      show (if a = k' then some b else dictLookup (dictSet d' k v) k')
          = (if a = k' then some b else dictLookup d' k')
      by_cases hak' : a = k'
      · rw [if_pos hak', if_pos hak']
      · rw [if_neg hak', if_neg hak', ih k k' v hne]

theorem dictLookup_setPage_other : ∀ (d : ResultSet) (repo p : List Char)
    (bs : List (List Char)) (r : List Char), r ≠ repo →
    dictLookup (setPage d repo p bs) r = dictLookup d r := by
  intro d
  induction d with
  | nil => intro repo p bs r _; rfl
  | cons e d' ih =>
    intro repo p bs r hne
    rcases e with ⟨a, inner⟩
    show dictLookup
        ((if a = repo then (a, dictSet inner p bs) else (a, inner)) :: setPage d' repo p bs) r
      = dictLookup ((a, inner) :: d') r
    by_cases ha : a = repo
    · rw [if_pos ha]
      have har : ¬ (a = r) := by rw [ha]; exact fun h => hne h.symm
      show (if a = r then some (dictSet inner p bs) else dictLookup (setPage d' repo p bs) r)
          = (if a = r then some inner else dictLookup d' r)
      rw [if_neg har, if_neg har, ih repo p bs r hne]
    · rw [if_neg ha]
      show (if a = r then some inner else dictLookup (setPage d' repo p bs) r)
          = (if a = r then some inner else dictLookup d' r)
      by_cases har : a = r
      · rw [if_pos har, if_pos har]
      · rw [if_neg har, if_neg har, ih repo p bs r hne]

theorem dictLookup_setPage_self : ∀ (d : ResultSet) (repo p : List Char)
    (bs : List (List Char)) (inner : List (List Char × List (List Char))),
    dictLookup d repo = some inner →
    dictLookup (setPage d repo p bs) repo = some (dictSet inner p bs) := by
  intro d
  induction d with
  | nil => intro repo p bs inner h; simp [dictLookup] at h
  | cons e d' ih =>
    intro repo p bs inner h
    rcases e with ⟨a, i0⟩
    show dictLookup
        ((if a = repo then (a, dictSet i0 p bs) else (a, i0)) :: setPage d' repo p bs) repo
      = some (dictSet inner p bs)
    by_cases ha : a = repo
    · have hi : i0 = inner := by
        have hx : dictLookup ((a, i0) :: d') repo = some i0 := by
          show (if a = repo then some i0 else dictLookup d' repo) = some i0
          rw [if_pos ha]
        rw [hx] at h
        exact (Option.some.injEq _ _ ▸ h)
      rw [if_pos ha]
      show (if a = repo then some (dictSet i0 p bs) else dictLookup (setPage d' repo p bs) repo)
          = some (dictSet inner p bs)
      rw [if_pos ha, hi]
    · have h' : dictLookup d' repo = some inner := by
        have hx : dictLookup ((a, i0) :: d') repo = dictLookup d' repo := by
          show (if a = repo then some i0 else dictLookup d' repo) = dictLookup d' repo
          rw [if_neg ha]
        rw [hx] at h
        exact h
      rw [if_neg ha]
      show (if a = repo then some i0 else dictLookup (setPage d' repo p bs) repo)
          = some (dictSet inner p bs)
      rw [if_neg ha, ih repo p bs inner h']

theorem pagesFold_lookup (net : List Char → Option (List Char) → FetchStep)
    (token : Option (List Char)) (excl : List (List Char)) (repo : List Char) :
    ∀ (pages : List (List Char)) (d : ResultSet) (inner : List (List Char × List (List Char))),
    dictLookup d repo = some inner →
    ∃ inner', dictLookup
        (pages.foldl (fun res page => setPage res repo page (pageBlocks net token excl repo page)) d)
        repo = some inner'
      ∧ (∀ p, dictLookup inner p ≠ none → dictLookup inner' p ≠ none)
      ∧ (∀ p ∈ pages, dictLookup inner' p ≠ none) := by
  intro pages
  induction pages with
  | nil =>
    intro d inner h
    exact ⟨inner, h, fun p hp => hp, fun p hp => absurd hp (by simp)⟩
  | cons pg pages' ih =>
    intro d inner h
    simp only [List.foldl_cons]
    have h1 : dictLookup (setPage d repo pg (pageBlocks net token excl repo pg)) repo
        = some (dictSet inner pg (pageBlocks net token excl repo pg)) :=
      dictLookup_setPage_self d repo pg _ inner h
    rcases ih (setPage d repo pg (pageBlocks net token excl repo pg))
      (dictSet inner pg (pageBlocks net token excl repo pg)) h1 with ⟨inner', hl, hmono, hall⟩
    refine ⟨inner', hl, ?_, ?_⟩
    · intro p hp
      apply hmono
      by_cases hppg : p = pg
      · rw [hppg, dictLookup_set_self]
        simp
      · rw [dictLookup_set_other inner pg p _ hppg]
        exact hp
    · intro p hp
      rcases List.mem_cons.mp hp with hh | hh
    

      · apply hmono
        rw [hh, dictLookup_set_self]
        simp
      · exact hall p hh

theorem pagesFold_lookup_other (net : List Char → Option (List Char) → FetchStep)
    (token : Option (List Char)) (excl : List (List Char)) (repo r : List Char)
    (hne : r ≠ repo) : ∀ (pages : List (List Char)) (d : ResultSet),
    dictLookup
      (pages.foldl (fun res page => setPage res repo page (pageBlocks net token excl repo page)) d)
      r = dictLookup d r := by
  intro pages
  induction pages with
  | nil => intro d; rfl
  | cons pg pages' ih =>
    intro d
    simp only [List.foldl_cons]
    rw [ih, dictLookup_setPage_other d repo pg _ r hne]

theorem cfgFold_lookup_other (net : List Char → Option (List Char) → FetchStep)
    (token : Option (List Char)) (excl : List (List Char)) :
    ∀ (cfg : List WikiEntry) (d : ResultSet) (r : List Char),
    (∀ e ∈ cfg, e.repo ≠ r) →
    dictLookup (cfg.foldl (processEntry net token excl) d) r = dictLookup d r := by
  intro cfg
  induction cfg with
  | nil => intro d r _; rfl
  | cons e0 cfg' ih =>
    intro d r h
    simp only [List.foldl_cons]
    rw [ih (processEntry net token excl d e0) r (fun e he => h e (by simp [he]))]
    have hne : r ≠ e0.repo := fun hh => h e0 (by simp) hh.symm
    show dictLookup
        (e0.pages.foldl
          (fun res page => setPage res e0.repo page (pageBlocks net token excl e0.repo page))
          (dictSet d e0.repo [])) r = dictLookup d r
    rw [pagesFold_lookup_other net token excl e0.repo r hne e0.pages (dictSet d e0.repo []),
      dictLookup_set_other d e0.repo r [] hne]

theorem cfgFold_lookup (net : List Char → Option (List Char) → FetchStep)
    (token : Option (List Char)) (excl : List (List Char)) :
    ∀ (cfg : List WikiEntry) (d : ResultSet),
    (cfg.map WikiEntry.repo).Nodup →
    ∀ e ∈ cfg, ∀ p ∈ e.pages,
      ∃ bs, dictLookup2 (cfg.foldl (processEntry net token excl) d) e.repo p = some bs := by
  intro cfg
  induction cfg with
  | nil => intro d _ e he; simp at he
  | cons e0 cfg' ih =>
    intro d hnd e he p hp
    simp only [List.map_cons, List.nodup_cons] at hnd
    simp only [List.foldl_cons]
    rcases List.mem_cons.mp he with he0 | he'
    · subst he0
      have hbase : dictLookup (dictSet d e.repo ([] : List (List Char × List (List Char)))) e.repo
          = some [] := dictLookup_set_self d e.repo []
      rcases pagesFold_lookup net token excl e.repo e.pages (dictSet d e.repo []) [] hbase
        with ⟨inner', hl, _, hall⟩
      have hl1 : dictLookup (processEntry net token excl d e) e.repo = some inner' := hl
      have hothers : ∀ e' ∈ cfg', e'.repo ≠ e.repo := by
        intro e' he' hh
        exact hnd.1 (List.mem_map.mpr ⟨e', he', hh⟩)
      have hfinal : dictLookup
          (cfg'.foldl (processEntry net token excl) (processEntry net token excl d e)) e.repo
          = some inner' := by
        rw [cfgFold_lookup_other net token excl cfg' (processEntry net token excl d e) e.repo hothers]
        exact hl1
      have hp' := hall p hp
      cases hlp : dictLookup inner' p with
      | none => exact absurd hlp hp'
      | some bs =>
        refine ⟨bs, ?_⟩
        unfold dictLookup2
        rw [hfinal]
        show dictLookup inner' p = some bs
        exact hlp
    · exact ih (processEntry net token excl d e0) hnd.2 e he' p hp

theorem dictSet_keys_mem {β : Type} : ∀ (d : List (List Char × β)) (k : List Char) (v : β)
    (a : List Char), a ∈ (dictSet d k v).map Prod.fst → a ∈ d.map Prod.fst ∨ a = k := by
  intro d
  induction d with
  | nil =>
    intro k v a h
    simp [dictSet] at h
    exact Or.inr h
  | cons e d' ih =>
    intro k v a h
    rcases e with ⟨k', v'⟩
    by_cases hk : k' = k
    · rw [show dictSet ((k', v') :: d') k v = (k, v) :: d' from by simp [dictSet, hk]] at h
      simp only [List.map_cons, List.mem_cons] at h
      rcases h with h | h
      · exact Or.inr h
      · exact Or.inl (by rw [List.map_cons]; exact List.mem_cons_of_mem _ h)
    · rw [show dictSet ((k', v') :: d') k v = (k', v') :: dictSet d' k v from by
        simp [dictSet, hk]] at h
      simp only [List.map_cons, List.mem_cons] at h
      rcases h with h | h
      · exact Or.inl (by rw [List.map_cons, h]; exact List.mem_cons_self _ _)
      · rcases ih k v a h with h2 | h2
        · exact Or.inl (by rw [List.map_cons]; exact List.mem_cons_of_mem _ h2)
        · exact Or.inr h2

theorem dictSet_keys_nodup {β : Type} : ∀ (d : List (List Char × β)) (k : List Char) (v : β),
    (d.map Prod.fst).Nodup → ((dictSet d k v).map Prod.fst).Nodup := by
  intro d
  induction d with
  | nil => intro k v _; simp [dictSet]
  | cons e d' ih =>
    intro k v hnd
    rcases e with ⟨k', v'⟩
    simp only [List.map_cons, List.nodup_cons] at hnd
    by_cases hk : k' = k
    · rw [show dictSet ((k', v') :: d') k v = (k, v) :: d' from by simp [dictSet, hk]]
      simp only [List.map_cons, List.nodup_cons]
      exact ⟨by rw [← hk]; exact hnd.1, hnd.2⟩
    · rw [show dictSet ((k', v') :: d') k v = (k', v') :: dictSet d' k v from by
        simp [dictSet, hk]]
      simp only [List.map_cons, List.nodup_cons]
      refine ⟨?_, ih k v hnd.2⟩
      intro hmem
      rcases dictSet_keys_mem d' k v k' hmem with h | h
      · exact hnd.1 h
      · exact hk h

theorem dictSet_mem {β : Type} : ∀ (d : List (List Char × β)) (k : List Char) (v : β)
    (e' : List Char × β), e' ∈ dictSet d k v → e' ∈ d ∨ e' = (k, v) := by
  intro d
  induction d with
  | nil =>
    intro k v e' h
    simp [dictSet] at h
    exact Or.inr h
  | cons e d' ih =>
    intro k v e' h
    rcases e with ⟨k', v'⟩
    by_cases hk : k' = k
    · rw [show dictSet ((k', v') :: d') k v = (k, v) :: d' from by simp [dictSet, hk]] at h
      rcases List.mem_cons.mp h with h | h
      · exact Or.inr h
      · exact Or.inl (List.mem_cons_of_mem _ h)
    · rw [show dictSet ((k', v') :: d') k v = (k', v') :: dictSet d' k v from by
        simp [dictSet, hk]] at h
      rcases List.mem_cons.mp h with h | h
      · exact Or.inl (by rw [h]; exact List.mem_cons_self _ _)
      · rcases ih k v e' h with h2 | h2
        · exact Or.inl (List.mem_cons_of_mem _ h2)
        · exact Or.inr h2

theorem setPage_keys : ∀ (d : ResultSet) (repo p : List Char) (bs : List (List Char)),
    (setPage d repo p bs).map Prod.fst = d.map Prod.fst := by
  intro d repo p bs
  induction d with
  | nil => rfl
  | cons e d' ih =>
    rcases e with ⟨a, inner⟩
    show ((if a = repo then (a, dictSet inner p bs) else (a, inner)) :: setPage d' repo p bs).map
        Prod.fst = ((a, inner) :: d').map Prod.fst
    by_cases ha : a = repo
    · simp only [if_pos ha, List.map_cons, ih]
    · simp only [if_neg ha, List.map_cons, ih]

theorem setPage_mem : ∀ (d : ResultSet) (repo p : List Char) (bs : List (List Char))
    (e' : List Char × List (List Char × List (List Char))), e' ∈ setPage d repo p bs →
    ∃ e0 ∈ d, e' = e0 ∨ e'.2 = dictSet e0.2 p bs := by
  intro d repo p bs e' h
  unfold setPage at h
  rcases List.mem_map.mp h with ⟨e0, he0, heq⟩
  by_cases hr : e0.1 = repo
  · rw [if_pos hr] at heq
    exact ⟨e0, he0, Or.inr (by rw [← heq])⟩
  · rw [if_neg hr] at heq
    exact ⟨e0, he0, Or.inl heq.symm⟩

theorem pagesFold_inv (net : List Char → Option (List Char) → FetchStep)
    (token : Option (List Char)) (excl : List (List Char)) (repo : List Char) :
    ∀ (pages : List (List Char)) (d : ResultSet),
    (d.map Prod.fst).Nodup → (∀ e ∈ d, (e.2.map Prod.fst).Nodup) →
    (((pages.foldl (fun res page => setPage res repo page (pageBlocks net token excl repo page)) d).map
        Prod.fst).Nodup
     ∧ ∀ e ∈ pages.foldl (fun res page => setPage res repo page (pageBlocks net token excl repo page)) d,
         (e.2.map Prod.fst).Nodup) := by
  intro pages
  induction pages with
  | nil => intro d h1 h2; exact ⟨h1, h2⟩
  | cons pg pages' ih =>
    intro d h1 h2
    simp only [List.foldl_cons]
    apply ih
    · rw [setPage_keys]
      exact h1
    · intro e he
      rcases setPage_mem d repo pg _ e he with ⟨e0, he0, heq | h2'⟩
      · rw [heq]
        exact h2 e0 he0
      · rw [h2']
        exact dictSet_keys_nodup e0.2 pg _ (h2 e0 he0)

theorem main_inv (net : List Char → Option (List Char) → FetchStep)
    (token : Option (List Char)) (excl : List (List Char)) :
    ∀ (cfg : List WikiEntry) (d : ResultSet),
    (d.map Prod.fst).Nodup → (∀ e ∈ d, (e.2.map Prod.fst).Nodup) →
    (((cfg.foldl (processEntry net token excl) d).map Prod.fst).Nodup
     ∧ ∀ e ∈ cfg.foldl (processEntry net token excl) d, (e.2.map Prod.fst).Nodup) := by
  intro cfg
  induction cfg with
  | nil => intro d h1 h2; exact ⟨h1, h2⟩
  | cons e0 cfg' ih =>
    intro d h1 h2
    simp only [List.foldl_cons]
    have hbase1 : ((dictSet d e0.repo ([] : List (List Char × List (List Char)))).map
        Prod.fst).Nodup := dictSet_keys_nodup d e0.repo [] h1
    have hbase2 : ∀ e ∈ dictSet d e0.repo ([] : List (List Char × List (List Char))),
        (e.2.map Prod.fst).Nodup := by
      intro e he
      rcases dictSet_mem d e0.repo [] e he with he' | heq
      · exact h2 e he'
      · rw [heq]
        simp
    have hpf := pagesFold_inv net token excl e0.repo e0.pages (dictSet d e0.repo []) hbase1 hbase2
    exact ih (processEntry net token excl d e0) hpf.1 hpf.2

/-- Counterexample to C7 as stated: when the same project identifier
appears in two configuration entries, `results[repo] = {}` at the start of
the second entry wipes the pages recorded by the first, so configured page
`A` has no entry in the ResultSet handed to the Writer. -/
theorem resultset_invariant_cx :
    main_results [⟨"g/p".toList, ["A".toList]⟩, ⟨"g/p".toList, ["B".toList]⟩] [] none netExnAll
      = [("g/p".toList, [("B".toList, [])])]
    ∧ dictLookup2
        (main_results [⟨"g/p".toList, ["A".toList]⟩, ⟨"g/p".toList, ["B".toList]⟩] [] none netExnAll)
        "g/p".toList "A".toList = none :=
  ⟨by decide, by decide⟩

/-- C7 (amended): the ResultSet's keys are unique at every level, and
provided each project identifier appears in at most one configuration
entry, every configured page name has exactly one entry (an empty or
non-empty block list, never a missing key) by the time the ResultSet is
handed to the Writer; when a project identifier recurs, pages of its
earlier entries may be absent. -/
theorem resultset_invariant_amended (cfg : List WikiEntry) (excl : List (List Char))
    (token : Option (List Char)) (net : List Char → Option (List Char) → FetchStep) :
    ((main_results cfg excl token net).map Prod.fst).Nodup
    ∧ (∀ e ∈ main_results cfg excl token net, (e.2.map Prod.fst).Nodup)
    ∧ ((cfg.map WikiEntry.repo).Nodup →
        ∀ e ∈ cfg, ∀ p ∈ e.pages,
          ∃ bs, dictLookup2 (main_results cfg excl token net) e.repo p = some bs) := by
  have hinv := main_inv net token excl cfg [] (by simp) (by simp)
  exact ⟨hinv.1, hinv.2, fun hnd e he p hp => cfgFold_lookup net token excl cfg [] hnd e he p hp⟩

/-- Witness for the amended C7 on a duplicate-free configuration. -/
theorem resultset_invariant_amended_witness :
    ∃ bs, dictLookup2 (main_results [⟨"g/p".toList, ["A".toList]⟩] [] none netExnAll)
      "g/p".toList "A".toList = some bs :=
  (resultset_invariant_amended [⟨"g/p".toList, ["A".toList]⟩] [] none netExnAll).2.2
    (by decide) ⟨"g/p".toList, ["A".toList]⟩ (by decide) "A".toList (by decide)

theorem pyReplace_map (s : List Char) :
    pyReplace s '/' "_".toList = s.map (fun c => if c = '/' then '_' else c) := by
  induction s with
  | nil => rfl
  | cons c s' ih =>
    show (if c = '/' then "_".toList ++ pyReplace s' '/' "_".toList
          else c :: pyReplace s' '/' "_".toList)
        = (if c = '/' then '_' else c) :: s'.map (fun c => if c = '/' then '_' else c)
    by_cases h : c = '/'
    · rw [if_pos h, if_pos h, ih]
      rfl
    · rw [if_neg h, if_neg h, ih]

theorem repoFileName_spec (repo : List Char) : repoFileName repo = writerFileNameSpec repo := by
  unfold repoFileName writerFileNameSpec
  rw [pyReplace_map]

theorem fileBody_spec (pages : List (List Char × List (List Char))) :
    fileBody pages = writerContentSpec pages := by
  induction pages with
  | nil => rfl
  | cons pc pages' ih =>
    rcases pc with ⟨pg, codes⟩
    show (if codes = [] then []
          else (codes.map (fun code => code ++ ['\n'])).flatten) ++ fileBody pages'
        = writerContentSpec ((pg, codes) :: pages')
    simp only [writerContentSpec, List.map_cons, List.flatten_cons, List.map_append,
      List.flatten_append]
    by_cases hc : codes = []
    · subst hc
      simp only [if_pos rfl, List.nil_append, List.map_nil, List.flatten_nil]
      exact ih
    · rw [if_neg hc, ih]
      rfl

/-- C8: the Writer produces one file per project, named by replacing every
path separator in the project identifier with an underscore and appending
`"_bash.sh"`, whose content is exactly the concatenation of every filtered
code block of that project, each followed by a single newline, in page
order and then block order, with empty pages contributing nothing and no
headers or separators added. -/
theorem writer_output_format (results : ResultSet) :
    save_results results
      = results.map (fun rp => (writerFileNameSpec rp.1, writerContentSpec rp.2)) := by
  induction results with
  | nil => rfl
  | cons rp rs ih =>
    show (repoFileName rp.1, fileBody rp.2) :: save_results rs
        = (writerFileNameSpec rp.1, writerContentSpec rp.2)
          :: rs.map (fun rp => (writerFileNameSpec rp.1, writerContentSpec rp.2))
    rw [repoFileName_spec, fileBody_spec, ih]
